import Mathlib

/-
Verification of the four batch analyzers in setup.py:
detect_abnormal_posting, detect_repeated_phrases, sentiment_analysis and
analyze_network, against their natural-language specification.

Modelling conventions:
* Python runtime values that can flow through the analyzers are modelled by
  the inductive type PyVal (strings, ints, lists, None); dictionary keys by
  PyKey; a whole top-level argument by PyObj (a dict or a plain value).
* Numeric quantities (parsed instants, gap lengths in seconds, means,
  variances, polarity scores) are modelled exactly in ℚ, idealising Python's
  float arithmetic; datetime subtraction and total_seconds become plain
  rational subtraction.
* External collaborators and external data are parameters: dateutil's
  parser.parse becomes an arbitrary function parse : String → Option ℚ
  (Option.none models the ValueError skip path), TextBlob polarity becomes
  score : String → Option ℚ, and the Unicode-database-backed str.lower()
  becomes lower : String → String.  The whitespace class shared by the
  str-pattern `\s` and str.strip() is a fixed 29-codepoint set, modelled
  exactly (isPySpace).
* statistics.stdev is the square root of the sample variance; the code's
  comparison interval < avg - k * stddev is decided in ℚ by ltMulSqrt,
  proved equivalent to the real-number comparison in ltMulSqrt_iff.
-/

/-- A Python runtime value as far as the analyzers inspect one. -/
inductive PyVal where
  | str : String → PyVal
  | int : Int → PyVal
  | list : List PyVal → PyVal
  | none : PyVal

/-- A Python dictionary key (hashable values only). -/
inductive PyKey where
  | str : String → PyKey
  | int : Int → PyKey
deriving DecidableEq

/-- A top-level analyzer argument: either a dict or some other value. -/
inductive PyObj where
  | dict : List (PyKey × PyVal) → PyObj
  | val : PyVal → PyObj

/-- Python truthiness for the modelled values (`if not timestamps`). -/
def PyVal.isTruthy : PyVal → Bool
  | .str s => s != ""
  | .int n => n != 0
  | .list xs => !xs.isEmpty
  | .none => false

/-- `isinstance(v, str)` as an extractor. -/
def PyVal.toStr : PyVal → Option String
  | .str s => some s
  | _ => Option.none

/-- Lines 44-46: every element must be a string, otherwise a TypeError is
raised and the whole account is skipped.  Returns the string contents when
all elements are strings. -/
def toStrSeq : List PyVal → Option (List String)
  | [] => some []
  | PyVal.str s :: rest => (toStrSeq rest).map (fun l => s :: l)
  | _ :: _ => Option.none

/-- Lines 42-46: the value must be a list of strings. -/
def asStringList : PyVal → Option (List String)
  | .list xs => toStrSeq xs
  | _ => Option.none

/-- Line 60: successive differences of a list (the per-account gap list). -/
def listGaps : List ℚ → List ℚ
  | a :: b :: rest => (b - a) :: listGaps (b :: rest)
  | _ => []

/-- Line 63: arithmetic mean, `sum(l) / len(l)`. -/
def listMean (l : List ℚ) : ℚ := l.sum / (l.length : ℚ)

/-- Line 69: the sample variance underlying `statistics.stdev`
(sum of squared deviations divided by n - 1). -/
def sampleVar (l : List ℚ) : ℚ :=
  ((l.map (fun x => (x - listMean l) ^ 2)).sum) / ((l.length : ℚ) - 1)

/-- Decides the real-number comparison `k * Real.sqrt var < d` by rational
arithmetic (for `0 ≤ var`); see ltMulSqrt_iff.  Used to model the code's
`interval < avg_interval - outlier_threshold_stddev * stddev` where
`stddev = Real.sqrt (sampleVar intervals)`. -/
def ltMulSqrt (k var d : ℚ) : Bool :=
  if 0 ≤ k then decide (0 < d) && decide (k ^ 2 * var < d ^ 2)
  else (decide (0 ≤ d) && (decide (0 < d) || decide (0 < var))) ||
    (decide (d < 0) && decide (d ^ 2 < k ^ 2 * var))

/-- Lines 39-57 of setup.py: the parsed timestamps extracted for a single
account.  The result is empty exactly when the code skips the account before
parsing (falsy value, non-list value, or a non-string element raising
TypeError); otherwise each string is fed to the parsing collaborator and
unparseable entries are discarded individually. -/
def parsedTimestamps (parse : String → Option ℚ) (v : PyVal) : List ℚ :=
  if v.isTruthy = false then []
  else
    match asStringList v with
    | Option.none => []
    | some strs => strs.filterMap parse

/-- Lines 65-66 and 72-73: `if account not in suspicious_accounts:
suspicious_accounts.append(account)`. -/
def appendIfAbsent (l : List PyKey) (a : PyKey) : List PyKey :=
  if a ∈ l then l else l ++ [a]

/-- Lines 38-77: the body of the per-account loop of
detect_abnormal_posting, acting on the accumulator of suspicious
accounts. -/
def processEntry (parse : String → Option ℚ) (it k : ℚ)
    (acc : List PyKey) (e : PyKey × PyVal) : List PyKey :=
  let parsed := parsedTimestamps parse e.2
  if parsed.length < 2 then acc
  else
    let ts := List.insertionSort (· ≤ ·) parsed
    let intervals := listGaps ts
    if intervals = [] then acc
    else
      let avg := listMean intervals
      let acc1 := if avg < it then appendIfAbsent acc e.1 else acc
      if 1 < intervals.length then
        intervals.foldl (fun a2 g =>
          if g < it ∧ ltMulSqrt k (sampleVar intervals) (avg - g) = true
          then appendIfAbsent a2 e.1 else a2) acc1
      else acc1

/-- Lines 31-79: detect_abnormal_posting.  A non-dict argument returns []
(line 33-35); otherwise the account loop is folded over the dict items. -/
def detect_abnormal_posting (parse : String → Option ℚ) (accounts_data : PyObj)
    (interval_threshold outlier_threshold_stddev : ℚ) : List PyKey :=
  match accounts_data with
  | .dict entries =>
      entries.foldl (processEntry parse interval_threshold outlier_threshold_stddev) []
  | .val _ => []

/-- The condition under which the loop body flags an account whose dict
value is v (read off from processEntry). -/
def flaggedCode (parse : String → Option ℚ) (it k : ℚ) (v : PyVal) : Prop :=
  ¬ (parsedTimestamps parse v).length < 2 ∧
    listGaps (List.insertionSort (· ≤ ·) (parsedTimestamps parse v)) ≠ [] ∧
    (listMean (listGaps (List.insertionSort (· ≤ ·) (parsedTimestamps parse v))) < it ∨
      (1 < (listGaps (List.insertionSort (· ≤ ·) (parsedTimestamps parse v))).length ∧
        ∃ g ∈ listGaps (List.insertionSort (· ≤ ·) (parsedTimestamps parse v)),
          g < it ∧
            ltMulSqrt k
              (sampleVar (listGaps (List.insertionSort (· ≤ ·) (parsedTimestamps parse v))))
              (listMean (listGaps (List.insertionSort (· ≤ ·) (parsedTimestamps parse v))) - g) =
              true))

/-- The specification's flagging condition: at least 2 successfully parsed
timestamps, and Rule A (mean gap below the threshold) or Rule B (at least
2 gaps and some gap below the threshold and more than k sample standard
deviations below the mean). -/
def flaggedSpec (parse : String → Option ℚ) (it k : ℚ) (v : PyVal) : Prop :=
  2 ≤ (parsedTimestamps parse v).length ∧
    (listMean (listGaps (List.insertionSort (· ≤ ·) (parsedTimestamps parse v))) < it ∨
      (2 ≤ (listGaps (List.insertionSort (· ≤ ·) (parsedTimestamps parse v))).length ∧
        ∃ g ∈ listGaps (List.insertionSort (· ≤ ·) (parsedTimestamps parse v)),
          g < it ∧
            ltMulSqrt k
              (sampleVar (listGaps (List.insertionSort (· ≤ ·) (parsedTimestamps parse v))))
              (listMean (listGaps (List.insertionSort (· ≤ ·) (parsedTimestamps parse v))) - g) =
              true))

/-- A concrete parsing collaborator used to instantiate theorems with
hypotheses: three known timestamp strings. -/
def parse0 (s : String) : Option ℚ :=
  if s = "t0" then some 0
  else if s = "t4" then some 4
  else if s = "t60" then some 60
  else Option.none

/-- The characters matched by `\s` in a Python str pattern and stripped by
`str.strip()`: both use the same fixed set of 29 Unicode whitespace
codepoints (CPython's Py_UNICODE_ISSPACE): U+0009-U+000D, U+001C-U+001F,
U+0020, U+0085, U+00A0, U+1680, U+2000-U+200A, U+2028, U+2029, U+202F,
U+205F and U+3000. -/
def isPySpace (c : Char) : Bool :=
  decide ((9 ≤ c.toNat ∧ c.toNat ≤ 13) ∨ (28 ≤ c.toNat ∧ c.toNat ≤ 31) ∨
    c.toNat = 32 ∨ c.toNat = 133 ∨ c.toNat = 160 ∨ c.toNat = 0x1680 ∨
    (0x2000 ≤ c.toNat ∧ c.toNat ≤ 0x200A) ∨ c.toNat = 0x2028 ∨
    c.toNat = 0x2029 ∨ c.toNat = 0x202F ∨ c.toNat = 0x205F ∨ c.toNat = 0x3000)

/-- Line 93: the default cleaning rule keeps exactly the characters matching
`[a-zA-Z0-9\s]`; everything else is removed by re.sub. -/
def keepChar (c : Char) : Bool := c.isAlphanum || isPySpace c

/-- `str.strip()`: drop whitespace from both ends. -/
def stripChars (l : List Char) : List Char :=
  ((l.dropWhile isPySpace).reverse.dropWhile isPySpace).reverse

/-- Line 93: `re.sub(cleaning_regex, '', post.lower()).strip()` — the
normalized key of a post: lowercase the whole post, remove the characters
outside the kept class, trim.  Python's Unicode-aware `str.lower()` is
backed by the Unicode character database, external data like the parsing
and scoring collaborators, so it is a parameter lower : String → String
(e.g. it maps U+0130 to "i" followed by U+0307). -/
def normalizeKey (lower : String → String) (post : String) : String :=
  String.mk (stripChars ((lower post).toList.filter keepChar))

/-- A concrete lowercasing function for witnesses; it agrees with Python's
`str.lower()` on ASCII-only strings. -/
def lower0 (s : String) : String :=
  String.mk (s.toList.map Char.toLower)

/-- Line 94 with `defaultdict(int)`: increment the count of a key, adding a
new key at the end (Python dicts keep insertion order). -/
def bumpKey : List (String × ℕ) → String → List (String × ℕ)
  | [], kk => [(kk, 1)]
  | (a, n) :: rest, kk =>
      if a = kk then (a, n + 1) :: rest else (a, n) :: bumpKey rest kk

/-- Lines 81-99: detect_repeated_phrases.  A non-list argument returns [];
non-string posts are skipped; each string post's normalized key is counted,
and the keys with count strictly above the threshold are returned. -/
def detect_repeated_phrases (lower : String → String) (posts_obj : PyObj)
    (repetition_threshold : ℕ) : List String :=
  match posts_obj with
  | .val (.list posts) =>
      ((posts.foldl
          (fun tbl p =>
            match p with
            | PyVal.str s => bumpKey tbl (normalizeKey lower s)
            | _ => tbl) []).filter
        (fun e => repetition_threshold < e.2)).map Prod.fst
  | _ => []

/-- The frequency of a normalized key over the string entries of the
corpus. -/
def countKey (lower : String → String) (posts : List PyVal) (kk : String) : ℕ :=
  ((posts.filterMap PyVal.toStr).map (normalizeKey lower)).count kk

def lookupCount : List (String × ℕ) → String → ℕ
  | [], _ => 0
  | (a, n) :: rest, kk => if a = kk then n else lookupCount rest kk

/-- The polarity scores of the successfully scored string posts. -/
def scoresOf (score : String → Option ℚ) (posts : List PyVal) : List ℚ :=
  (posts.filterMap PyVal.toStr).filterMap score

/-- Lines 101-126: sentiment_analysis.  A non-list argument returns 0; an
empty corpus returns 0; non-string posts and failed scorings are skipped; if
no score was collected the result is 0, otherwise the mean of the scores. -/
def sentiment_analysis (score : String → Option ℚ) (posts_obj : PyObj) : ℚ :=
  match posts_obj with
  | .val (.list posts) =>
      if posts.isEmpty then 0
      else
        let sentiments := posts.foldl
          (fun acc p =>
            match p with
            | PyVal.str s =>
                match score s with
                | some x => acc ++ [x]
                | Option.none => acc
            | _ => acc) []
        if sentiments.isEmpty then 0 else listMean sentiments
  | _ => 0

/-- Lines 135-150 of setup.py: the undirected edges contributed by one dict
item.  The friends value must be a list (checked first, line 136), the
account key a string (line 139), and each string friend (line 143) yields
the edge (account, friend); everything else is skipped. -/
def entryEdges (e : PyKey × PyVal) : List (String × String) :=
  match e.2 with
  | PyVal.list fl =>
      match e.1 with
      | PyKey.str a =>
          fl.filterMap (fun f =>
            match f with
            | PyVal.str b => some (a, b)
            | _ => Option.none)
      | _ => []
  | _ => []

/-- Lines 134-150: the edge list accumulated by `G.add_edge` over the
whole dict. -/
def buildEdges (entries : List (PyKey × PyVal)) : List (String × String) :=
  entries.foldl (fun es e => es ++ entryEdges e) []

/-- The undirected adjacency of the accumulated edge list (nx.Graph treats
`add_edge(a, b)` and `add_edge(b, a)` as the same edge). -/
def edgeAdj (es : List (String × String)) (x y : String) : Prop :=
  (x, y) ∈ es ∨ (y, x) ∈ es

/-- x is a node of the graph (`add_edge` adds both endpoints). -/
def isNode (es : List (String × String)) (x : String) : Prop :=
  ∃ y, (x, y) ∈ es ∨ (y, x) ∈ es

/-- Modelled from the spec: the graph-connectivity collaborator
(nx.connected_components is not part of this repository).  Spec section 6:
"given an undirected edge set, returns the partition into maximal connected
components"; the component of a node is its reachability closure. -/
def componentOf (es : List (String × String)) (a : String) : Set String :=
  {y | Relation.ReflTransGen (edgeAdj es) a y}

/-- Modelled from the spec: the set of connected components returned by the
connectivity collaborator, one per node. -/
def connectedComponents (es : List (String × String)) : Set (Set String) :=
  {S | ∃ a, isNode es a ∧ S = componentOf es a}

/-- Lines 128-153: analyze_network.  A non-dict argument yields no clusters
(lines 130-132); otherwise the connected components of the built graph
whose size is strictly above cluster_threshold (line 152). -/
def analyze_network (accounts : PyObj) (cluster_threshold : ℕ) : Set (Set String) :=
  match accounts with
  | .dict entries =>
      {S | S ∈ connectedComponents (buildEdges entries) ∧ cluster_threshold < S.ncard}
  | .val _ => ∅

/-- The claim's notion of a valid (account, friend) pair: a string account
key whose value is a list containing the string friend. -/
def validPair (entries : List (PyKey × PyVal)) (a b : String) : Prop :=
  ∃ fl, (PyKey.str a, PyVal.list fl) ∈ entries ∧ PyVal.str b ∈ fl

/-- The undirected adjacency induced by the valid pairs (the claim's
graph). -/
def specAdj (entries : List (PyKey × PyVal)) (x y : String) : Prop :=
  validPair entries x y ∨ validPair entries y x

def specNode (entries : List (PyKey × PyVal)) (x : String) : Prop :=
  ∃ y, validPair entries x y ∨ validPair entries y x

/-- Every two elements of S are joined by an undirected path. -/
def mutualReach (A : String → String → Prop) (S : Set String) : Prop :=
  ∀ x ∈ S, ∀ y ∈ S, Relation.ReflTransGen A x y

/-- The spec's "maximal connected component" of the graph of valid pairs:
a nonempty set of nodes, mutually reachable, and maximal among such sets
(spec glossary: "maximal set of graph nodes mutually reachable via
undirected edges"). -/
def specIsComponent (entries : List (PyKey × PyVal)) (S : Set String) : Prop :=
  S.Nonempty ∧ (∀ x ∈ S, specNode entries x) ∧ mutualReach (specAdj entries) S ∧
    ∀ T, S ⊆ T → (∀ x ∈ T, specNode entries x) → mutualReach (specAdj entries) T →
      T = S

/-- `isinstance(x, dict)` for a top-level argument. -/
def PyObj.isDict : PyObj → Bool
  | .dict _ => true
  | .val _ => false

/-- `isinstance(x, list)` for a top-level argument. -/
def PyObj.isList : PyObj → Bool
  | .val (.list _) => true
  | _ => false

theorem mulSqrt_lt_iff_of_nonneg (K V D : ℝ) (hV : 0 ≤ V) (hK : 0 ≤ K) :
    K * Real.sqrt V < D ↔ 0 < D ∧ K ^ 2 * V < D ^ 2 := by
  set s := Real.sqrt V with hsdef
  have hs : 0 ≤ s := Real.sqrt_nonneg V
  have hs2 : s ^ 2 = V := Real.sq_sqrt hV
  have h1 : 0 ≤ K * s := mul_nonneg hK hs
  constructor
  · intro h
    have hD : 0 < D := lt_of_le_of_lt h1 h
    refine ⟨hD, ?_⟩
    nlinarith [mul_pos (sub_pos.mpr h) (by linarith : 0 < D + K * s)]
  · rintro ⟨hD, hlt⟩
    by_contra hcon
    push_neg at hcon
    nlinarith

theorem mulSqrt_lt_iff_of_neg (K V D : ℝ) (hV : 0 ≤ V) (hK : K < 0) :
    K * Real.sqrt V < D ↔
      (0 ≤ D ∧ (0 < D ∨ 0 < V)) ∨ (D < 0 ∧ D ^ 2 < K ^ 2 * V) := by
  set s := Real.sqrt V with hsdef
  have hs : 0 ≤ s := Real.sqrt_nonneg V
  have hs2 : s ^ 2 = V := Real.sq_sqrt hV
  have hKs : K * s ≤ 0 := mul_nonpos_iff.mpr (Or.inr ⟨le_of_lt hK, hs⟩)
  constructor
  · intro h
    rcases lt_trichotomy D 0 with hD | hD | hD
    · refine Or.inr ⟨hD, ?_⟩
      have h2 : 0 < (-K) * s - (-D) := by nlinarith
      have h3 : 0 < (-K) * s + (-D) := by nlinarith [mul_nonneg (by linarith : (0:ℝ) ≤ -K) hs]
      nlinarith [mul_pos h2 h3]
    · subst hD
      have hspos : 0 < s := by
        by_contra hns
        push_neg at hns
        have : s = 0 := le_antisymm hns hs
        rw [this] at h
        simp at h
      have hVpos : 0 < V := Real.sqrt_pos.mp (by rw [← hsdef]; exact hspos)
      exact Or.inl ⟨le_refl 0, Or.inr hVpos⟩
    · exact Or.inl ⟨le_of_lt hD, Or.inl hD⟩
  · rintro (⟨hD0, hD | hV0⟩ | ⟨hD, hlt⟩)
    · exact lt_of_le_of_lt hKs hD
    · have hspos : 0 < s := by
        rw [hsdef]
        exact Real.sqrt_pos.mpr hV0
      have : K * s < 0 := mul_neg_of_neg_of_pos hK hspos
      exact lt_of_lt_of_le this hD0
    · by_contra hcon
      push_neg at hcon
      nlinarith

/-- `ltMulSqrt k var d` decides `(k : ℝ) * Real.sqrt var < d` when
`0 ≤ var`: the rational test is faithful to the code's comparison against
`avg - k * stddev`. -/
theorem ltMulSqrt_iff (k var d : ℚ) (hvar : 0 ≤ var) :
    ltMulSqrt k var d = true ↔ (k : ℝ) * Real.sqrt ((var : ℚ) : ℝ) < ((d : ℚ) : ℝ) := by
  have hV : (0 : ℝ) ≤ (var : ℝ) := by exact_mod_cast hvar
  by_cases hk : (0 : ℚ) ≤ k
  · have hK : (0 : ℝ) ≤ (k : ℝ) := by exact_mod_cast hk
    rw [mulSqrt_lt_iff_of_nonneg _ _ _ hV hK]
    simp only [ltMulSqrt, if_pos hk, Bool.and_eq_true, decide_eq_true_eq]
    constructor
    · rintro ⟨h1, h2⟩
      exact ⟨by exact_mod_cast h1, by exact_mod_cast h2⟩
    · rintro ⟨h1, h2⟩
      exact ⟨by exact_mod_cast h1, by exact_mod_cast h2⟩
  · have hK : (k : ℝ) < 0 := by
      have : k < 0 := lt_of_not_le hk
      exact_mod_cast this
    rw [mulSqrt_lt_iff_of_neg _ _ _ hV hK]
    simp only [ltMulSqrt, if_neg hk, Bool.or_eq_true, Bool.and_eq_true,
      decide_eq_true_eq]
    constructor
    · rintro (⟨h1, h2⟩ | ⟨h1, h2⟩)
      · refine Or.inl ⟨by exact_mod_cast h1, ?_⟩
        rcases h2 with h2 | h2
        · exact Or.inl (by exact_mod_cast h2)
        · exact Or.inr (by exact_mod_cast h2)
      · exact Or.inr ⟨by exact_mod_cast h1, by exact_mod_cast h2⟩
    · rintro (⟨h1, h2⟩ | ⟨h1, h2⟩)
      · refine Or.inl ⟨by exact_mod_cast h1, ?_⟩
        rcases h2 with h2 | h2
        · exact Or.inl (by exact_mod_cast h2)
        · exact Or.inr (by exact_mod_cast h2)
      · exact Or.inr ⟨by exact_mod_cast h1, by exact_mod_cast h2⟩

theorem mem_appendIfAbsent (l : List PyKey) (a x : PyKey) :
    x ∈ appendIfAbsent l a ↔ x ∈ l ∨ x = a := by
  unfold appendIfAbsent
  by_cases h : a ∈ l
  · simp only [if_pos h]
    constructor
    · exact Or.inl
    · rintro (hx | rfl)
      · exact hx
      · exact h
  · simp [if_neg h]

theorem nodup_appendIfAbsent (l : List PyKey) (a : PyKey) (h : l.Nodup) :
    (appendIfAbsent l a).Nodup := by
  unfold appendIfAbsent
  by_cases hm : a ∈ l
  · simpa [if_pos hm] using h
  · simp only [if_neg hm]
    rw [List.nodup_append]
    exact ⟨h, List.nodup_singleton a, by simpa using hm⟩

theorem mem_foldl_flag (P : ℚ → Prop) [DecidablePred P] (c x : PyKey)
    (l : List ℚ) (acc : List PyKey) :
    x ∈ l.foldl (fun a2 g => if P g then appendIfAbsent a2 c else a2) acc ↔
      x ∈ acc ∨ (x = c ∧ ∃ g ∈ l, P g) := by
  induction l generalizing acc with
  | nil => simp
  | cons g rest ih =>
      simp only [List.foldl_cons]
      by_cases hg : P g
      · rw [if_pos hg, ih, mem_appendIfAbsent]
        constructor
        · rintro ((hx | rfl) | ⟨rfl, gg, hgg, hP⟩)
          · exact Or.inl hx
          · exact Or.inr ⟨rfl, g, by simp, hg⟩
          · exact Or.inr ⟨rfl, gg, by simp [hgg], hP⟩
        · rintro (hx | ⟨rfl, gg, hgg, hP⟩)
          · exact Or.inl (Or.inl hx)
          · rcases List.mem_cons.mp hgg with rfl | hgg
            · exact Or.inl (Or.inr rfl)
            · exact Or.inr ⟨rfl, gg, hgg, hP⟩
      · rw [if_neg hg, ih]
        constructor
        · rintro (hx | ⟨rfl, gg, hgg, hP⟩)
          · exact Or.inl hx
          · exact Or.inr ⟨rfl, gg, by simp [hgg], hP⟩
        · rintro (hx | ⟨rfl, gg, hgg, hP⟩)
          · exact Or.inl hx
          · rcases List.mem_cons.mp hgg with rfl | hgg
            · exact absurd hP hg
            · exact Or.inr ⟨rfl, gg, hgg, hP⟩

theorem nodup_foldl_flag (P : ℚ → Prop) [DecidablePred P] (c : PyKey)
    (l : List ℚ) (acc : List PyKey) (h : acc.Nodup) :
    (l.foldl (fun a2 g => if P g then appendIfAbsent a2 c else a2) acc).Nodup := by
  induction l generalizing acc with
  | nil => simpa
  | cons g rest ih =>
      simp only [List.foldl_cons]
      by_cases hg : P g
      · rw [if_pos hg]
        exact ih _ (nodup_appendIfAbsent _ _ h)
      · rw [if_neg hg]
        exact ih _ h

theorem mem_processEntry (parse : String → Option ℚ) (it k : ℚ)
    (acc : List PyKey) (e : PyKey × PyVal) (x : PyKey) :
    x ∈ processEntry parse it k acc e ↔
      x ∈ acc ∨ (x = e.1 ∧ flaggedCode parse it k e.2) := by
  unfold processEntry flaggedCode
  by_cases h2 : (parsedTimestamps parse e.2).length < 2
  · simp only [if_pos h2]
    constructor
    · exact Or.inl
    · rintro (hx | ⟨_, hfl, _⟩)
      · exact hx
      · exact absurd h2 hfl
  · simp only [if_neg h2]
    by_cases hil : listGaps (List.insertionSort (· ≤ ·) (parsedTimestamps parse e.2)) = []
    · simp only [if_pos hil]
      constructor
      · exact Or.inl
      · rintro (hx | ⟨_, _, hne, _⟩)
        · exact hx
        · exact absurd hil hne
    · simp only [if_neg hil]
      by_cases hB : 1 < (listGaps (List.insertionSort (· ≤ ·) (parsedTimestamps parse e.2))).length
      · rw [if_pos hB, mem_foldl_flag]
        by_cases hA : listMean (listGaps (List.insertionSort (· ≤ ·) (parsedTimestamps parse e.2))) < it
        · rw [if_pos hA, mem_appendIfAbsent]
          constructor
          · rintro ((hx | rfl) | ⟨rfl, g, hg, hP⟩)
            · exact Or.inl hx
            · exact Or.inr ⟨rfl, h2, hil, Or.inl hA⟩
            · exact Or.inr ⟨rfl, h2, hil, Or.inr ⟨hB, g, hg, hP⟩⟩
          · rintro (hx | ⟨rfl, _, _, hA2 | ⟨_, g, hg, hP⟩⟩)
            · exact Or.inl (Or.inl hx)
            · exact Or.inl (Or.inr rfl)
            · exact Or.inr ⟨rfl, g, hg, hP⟩
        · rw [if_neg hA]
          constructor
          · rintro (hx | ⟨rfl, g, hg, hP⟩)
            · exact Or.inl hx
            · exact Or.inr ⟨rfl, h2, hil, Or.inr ⟨hB, g, hg, hP⟩⟩
          · rintro (hx | ⟨rfl, _, _, hA2 | ⟨_, g, hg, hP⟩⟩)
            · exact Or.inl hx
            · exact absurd hA2 hA
            · exact Or.inr ⟨rfl, g, hg, hP⟩
      · rw [if_neg hB]
        by_cases hA : listMean (listGaps (List.insertionSort (· ≤ ·) (parsedTimestamps parse e.2))) < it
        · rw [if_pos hA, mem_appendIfAbsent]
          constructor
          · rintro (hx | rfl)
            · exact Or.inl hx
            · exact Or.inr ⟨rfl, h2, hil, Or.inl hA⟩
          · rintro (hx | ⟨rfl, _, _, hA2 | ⟨hB2, _⟩⟩)
            · exact Or.inl hx
            · exact Or.inr rfl
            · exact absurd hB2 hB
        · rw [if_neg hA]
          constructor
          · exact Or.inl
          · rintro (hx | ⟨rfl, _, _, hA2 | ⟨hB2, _⟩⟩)
            · exact hx
            · exact absurd hA2 hA
            · exact absurd hB2 hB

theorem nodup_processEntry (parse : String → Option ℚ) (it k : ℚ)
    (acc : List PyKey) (e : PyKey × PyVal) (h : acc.Nodup) :
    (processEntry parse it k acc e).Nodup := by
  unfold processEntry
  by_cases h2 : (parsedTimestamps parse e.2).length < 2
  · simpa [if_pos h2] using h
  · simp only [if_neg h2]
    by_cases hil : listGaps (List.insertionSort (· ≤ ·) (parsedTimestamps parse e.2)) = []
    · simpa [if_pos hil] using h
    · simp only [if_neg hil]
      by_cases hA : listMean (listGaps (List.insertionSort (· ≤ ·) (parsedTimestamps parse e.2))) < it
      · simp only [if_pos hA]
        by_cases hB : 1 < (listGaps (List.insertionSort (· ≤ ·) (parsedTimestamps parse e.2))).length
        · rw [if_pos hB]
          exact nodup_foldl_flag _ _ _ _ (nodup_appendIfAbsent _ _ h)
        · rw [if_neg hB]
          exact nodup_appendIfAbsent _ _ h
      · simp only [if_neg hA]
        by_cases hB : 1 < (listGaps (List.insertionSort (· ≤ ·) (parsedTimestamps parse e.2))).length
        · rw [if_pos hB]
          exact nodup_foldl_flag _ _ _ _ h
        · rw [if_neg hB]
          exact h

theorem mem_detect_foldl (parse : String → Option ℚ) (it k : ℚ)
    (entries : List (PyKey × PyVal)) (acc : List PyKey) (x : PyKey) :
    x ∈ entries.foldl (processEntry parse it k) acc ↔
      x ∈ acc ∨ ∃ v, (x, v) ∈ entries ∧ flaggedCode parse it k v := by
  induction entries generalizing acc with
  | nil => simp
  | cons e rest ih =>
      obtain ⟨a, w⟩ := e
      simp only [List.foldl_cons]
      rw [ih, mem_processEntry]
      constructor
      · rintro ((hx | ⟨rfl, hfl⟩) | ⟨v, hv, hfl⟩)
        · exact Or.inl hx
        · exact Or.inr ⟨w, by simp, hfl⟩
        · exact Or.inr ⟨v, by simp [hv], hfl⟩
      · rintro (hx | ⟨v, hv, hfl⟩)
        · exact Or.inl (Or.inl hx)
        · rcases List.mem_cons.mp hv with heq | hv
          · rcases Prod.mk.injEq .. ▸ heq with ⟨h1, h2⟩
            subst h1
            subst h2
            exact Or.inl (Or.inr ⟨rfl, hfl⟩)
          · exact Or.inr ⟨v, hv, hfl⟩

theorem listGaps_length (l : List ℚ) : (listGaps l).length = l.length - 1 := by
  induction l with
  | nil => simp [listGaps]
  | cons a rest ih =>
      cases rest with
      | nil => simp [listGaps]
      | cons b rest2 =>
          simp only [listGaps, List.length_cons] at ih ⊢
          omega

theorem flaggedCode_iff_flaggedSpec (parse : String → Option ℚ) (it k : ℚ)
    (v : PyVal) : flaggedCode parse it k v ↔ flaggedSpec parse it k v := by
  unfold flaggedCode flaggedSpec
  constructor
  · rintro ⟨h2, hne, hAB⟩
    refine ⟨by omega, ?_⟩
    rcases hAB with hA | ⟨hB, hg⟩
    · exact Or.inl hA
    · exact Or.inr ⟨by omega, hg⟩
  · rintro ⟨h2, hAB⟩
    have hlen : (listGaps (List.insertionSort (· ≤ ·) (parsedTimestamps parse v))).length =
        (parsedTimestamps parse v).length - 1 := by
      rw [listGaps_length, (List.perm_insertionSort (· ≤ ·) (parsedTimestamps parse v)).length_eq]
    refine ⟨by omega, ?_, ?_⟩
    · have : 0 < (listGaps (List.insertionSort (· ≤ ·) (parsedTimestamps parse v))).length := by
        omega
      exact List.ne_nil_of_length_pos this
    · rcases hAB with hA | ⟨hB, hg⟩
      · exact Or.inl hA
      · exact Or.inr ⟨by omega, hg⟩

/-- C1.  detect_abnormal_posting flags exactly the accounts that have at
least 2 successfully parsed timestamps and whose gap list (between
consecutive sorted parsed instants) satisfies Rule A (mean gap below
interval_threshold) or Rule B (at least 2 gaps, and some gap below
interval_threshold and more than outlier_threshold_stddev sample standard
deviations below the mean); in particular an account with fewer than 2
parseable timestamps never appears in the output. -/
theorem detect_abnormal_posting_flags_iff (parse : String → Option ℚ)
    (it k : ℚ) (entries : List (PyKey × PyVal)) (x : PyKey) :
    x ∈ detect_abnormal_posting parse (.dict entries) it k ↔
      ∃ v, (x, v) ∈ entries ∧ flaggedSpec parse it k v := by
  unfold detect_abnormal_posting
  rw [mem_detect_foldl]
  simp only [List.not_mem_nil, false_or]
  constructor
  · rintro ⟨v, hv, hfl⟩
    exact ⟨v, hv, (flaggedCode_iff_flaggedSpec parse it k v).mp hfl⟩
  · rintro ⟨v, hv, hfl⟩
    exact ⟨v, hv, (flaggedCode_iff_flaggedSpec parse it k v).mpr hfl⟩

/-- C9.  The list returned by detect_abnormal_posting contains each account
identifier at most once, even when an account satisfies both rules. -/
theorem detect_abnormal_posting_nodup (parse : String → Option ℚ)
    (o : PyObj) (it k : ℚ) :
    (detect_abnormal_posting parse o it k).Nodup := by
  unfold detect_abnormal_posting
  match o with
  | .val _ => exact List.nodup_nil
  | .dict entries =>
      have key : ∀ (l : List (PyKey × PyVal)) (acc : List PyKey), acc.Nodup →
          (l.foldl (processEntry parse it k) acc).Nodup := by
        intro l
        induction l with
        | nil => intro acc h; simpa
        | cons e rest ih =>
            intro acc h
            simp only [List.foldl_cons]
            exact ih _ (nodup_processEntry parse it k acc e h)
      exact key entries [] List.nodup_nil

/-- C6.  An account whose list yields exactly 2 successfully parsed
timestamps has a single gap, Rule B is skipped (its guard needs more than
one gap), and the account is flagged iff that single gap is below
interval_threshold. -/
theorem two_timestamps_rule_a_only (parse : String → Option ℚ) (it k : ℚ)
    (a : PyKey) (v : PyVal) (h : (parsedTimestamps parse v).length = 2) :
    ∃ g, listGaps (List.insertionSort (· ≤ ·) (parsedTimestamps parse v)) = [g] ∧
      (a ∈ detect_abnormal_posting parse (.dict [(a, v)]) it k ↔ g < it) := by
  have hslen : (List.insertionSort (· ≤ ·) (parsedTimestamps parse v)).length = 2 := by
    rw [(List.perm_insertionSort (· ≤ ·) (parsedTimestamps parse v)).length_eq, h]
  obtain ⟨x, y, hxy⟩ := List.length_eq_two.mp hslen
  have hgl : listGaps (List.insertionSort (· ≤ ·) (parsedTimestamps parse v)) = [y - x] := by
    rw [hxy]
    rfl
  have hmean : listMean [y - x] = y - x := by
    simp [listMean]
  have hfc : flaggedCode parse it k v ↔ y - x < it := by
    unfold flaggedCode
    rw [hgl, hmean]
    constructor
    · rintro ⟨h2, hne, hA | ⟨hB, hg⟩⟩
      · exact hA
      · simp at hB
    · intro hg
      exact ⟨by omega, by simp, Or.inl hg⟩
  refine ⟨y - x, hgl, ?_⟩
  unfold detect_abnormal_posting
  rw [mem_detect_foldl]
  simp only [List.not_mem_nil, false_or, List.mem_singleton, Prod.mk.injEq,
    eq_self_iff_true, true_and]
  constructor
  · rintro ⟨w, rfl, hfl⟩
    exact hfc.mp hfl
  · intro hg
    exact ⟨v, rfl, hfc.mpr hg⟩

theorem two_timestamps_rule_a_only_witness :
    ∃ g, listGaps (List.insertionSort (· ≤ ·)
        (parsedTimestamps parse0 (.list [.str "t4", .str "t0"]))) = [g] ∧
      ((PyKey.str "bot") ∈ detect_abnormal_posting parse0
          (.dict [(.str "bot", .list [.str "t4", .str "t0"])]) 30 2 ↔ g < 30) :=
  two_timestamps_rule_a_only parse0 30 2 (.str "bot") (.list [.str "t4", .str "t0"]) rfl

theorem toStrSeq_eq_some (xs : List PyVal) (l : List String)
    (h : toStrSeq xs = some l) : l = xs.filterMap PyVal.toStr := by
  induction xs generalizing l with
  | nil =>
      simp only [toStrSeq, Option.some.injEq] at h
      simp [← h]
  | cons v rest ih =>
      cases v with
      | str s =>
          simp only [toStrSeq, Option.map_eq_some'] at h
          obtain ⟨l2, hl2, rfl⟩ := h
          simp [List.filterMap_cons, PyVal.toStr, ih l2 hl2]
      | int n => simp [toStrSeq] at h
      | list ws => simp [toStrSeq] at h
      | none => simp [toStrSeq] at h

theorem toStrSeq_isSome_iff (xs : List PyVal) :
    (∃ l, toStrSeq xs = some l) ↔ ∀ v ∈ xs, ∃ s, v = PyVal.str s := by
  induction xs with
  | nil => simp [toStrSeq]
  | cons v rest ih =>
      cases v with
      | str s =>
          simp only [toStrSeq, Option.map_eq_some']
          constructor
          · rintro ⟨l, l2, hl2, rfl⟩
            intro w hw
            rcases List.mem_cons.mp hw with rfl | hw
            · exact ⟨s, rfl⟩
            · exact ih.mp ⟨l2, hl2⟩ w hw
          · intro hall
            obtain ⟨l2, hl2⟩ := ih.mpr (fun w hw => hall w (List.mem_cons_of_mem _ hw))
            exact ⟨s :: l2, l2, hl2, rfl⟩
      | int n =>
          constructor
          · rintro ⟨l, hl⟩
            simp [toStrSeq] at hl
          · intro hall
            obtain ⟨s, hs⟩ := hall (PyVal.int n) (List.mem_cons_self _ _)
            cases hs
      | list ws =>
          constructor
          · rintro ⟨l, hl⟩
            simp [toStrSeq] at hl
          · intro hall
            obtain ⟨s, hs⟩ := hall (PyVal.list ws) (List.mem_cons_self _ _)
            cases hs
      | none =>
          constructor
          · rintro ⟨l, hl⟩
            simp [toStrSeq] at hl
          · intro hall
            obtain ⟨s, hs⟩ := hall PyVal.none (List.mem_cons_self _ _)
            cases hs

theorem toStrSeq_eq_none (xs : List PyVal)
    (h : ¬ ∀ v ∈ xs, ∃ s, v = PyVal.str s) : toStrSeq xs = Option.none := by
  rcases hcase : toStrSeq xs with _ | l
  · rfl
  · exact absurd ((toStrSeq_isSome_iff xs).mp ⟨l, hcase⟩) h

theorem parsedTimestamps_list (parse : String → Option ℚ) (xs : List PyVal)
    (hne : xs ≠ []) :
    parsedTimestamps parse (.list xs) =
      match toStrSeq xs with
      | Option.none => []
      | some strs => strs.filterMap parse := by
  cases xs with
  | nil => exact absurd rfl hne
  | cons a as => rfl

theorem parsedTimestamps_perm (parse : String → Option ℚ)
    {xs ys : List PyVal} (hp : xs.Perm ys) :
    (parsedTimestamps parse (.list xs)).Perm (parsedTimestamps parse (.list ys)) := by
  by_cases hxe : xs = []
  · subst hxe
    rw [List.Perm.eq_nil hp.symm]
  · have hye : ys ≠ [] := by
      intro hcon
      subst hcon
      exact hxe (List.Perm.eq_nil hp)
    rw [parsedTimestamps_list parse xs hxe, parsedTimestamps_list parse ys hye]
    by_cases hall : ∀ v ∈ xs, ∃ s, v = PyVal.str s
    · obtain ⟨lx, hlx⟩ := (toStrSeq_isSome_iff xs).mpr hall
      obtain ⟨ly, hly⟩ := (toStrSeq_isSome_iff ys).mpr
        (fun w hw => hall w (hp.mem_iff.mpr hw))
      rw [hlx, hly]
      have hpl : lx.Perm ly := by
        rw [toStrSeq_eq_some xs lx hlx, toStrSeq_eq_some ys ly hly]
        exact hp.filterMap PyVal.toStr
      exact hpl.filterMap parse
    · have hall2 : ¬ ∀ v ∈ ys, ∃ s, v = PyVal.str s := by
        intro hcon
        exact hall (fun w hw => hcon w (hp.mem_iff.mp hw))
      rw [toStrSeq_eq_none xs hall, toStrSeq_eq_none ys hall2]

theorem insertionSort_eq_of_perm {l1 l2 : List ℚ} (h : l1.Perm l2) :
    List.insertionSort (· ≤ ·) l1 = List.insertionSort (· ≤ ·) l2 :=
  List.eq_of_perm_of_sorted
    ((List.perm_insertionSort (· ≤ ·) l1).trans
      (h.trans (List.perm_insertionSort (· ≤ ·) l2).symm))
    (List.sorted_insertionSort (· ≤ ·) l1)
    (List.sorted_insertionSort (· ≤ ·) l2)

theorem processEntry_congr (parse : String → Option ℚ) (it k : ℚ)
    (acc : List PyKey) (a : PyKey) {v1 v2 : PyVal}
    (hp : (parsedTimestamps parse v1).Perm (parsedTimestamps parse v2)) :
    processEntry parse it k acc (a, v1) = processEntry parse it k acc (a, v2) := by
  unfold processEntry
  simp only [insertionSort_eq_of_perm hp, hp.length_eq]

/-- C7.  Replacing one account's timestamp list by any permutation of it
leaves the result of detect_abnormal_posting unchanged: the internal
ascending sort normalizes the ordering before gaps are computed. -/
theorem detect_abnormal_posting_perm_invariant (parse : String → Option ℚ)
    (it k : ℚ) (l1 l2 : List (PyKey × PyVal)) (a : PyKey)
    {xs ys : List PyVal} (hp : xs.Perm ys) :
    detect_abnormal_posting parse (.dict (l1 ++ (a, PyVal.list xs) :: l2)) it k =
      detect_abnormal_posting parse (.dict (l1 ++ (a, PyVal.list ys) :: l2)) it k := by
  show List.foldl (processEntry parse it k) [] (l1 ++ (a, PyVal.list xs) :: l2) =
    List.foldl (processEntry parse it k) [] (l1 ++ (a, PyVal.list ys) :: l2)
  rw [List.foldl_append, List.foldl_append, List.foldl_cons, List.foldl_cons,
    processEntry_congr parse it k _ a (parsedTimestamps_perm parse hp)]

theorem detect_abnormal_posting_perm_invariant_witness :
    detect_abnormal_posting parse0
        (.dict [(.str "bot", .list [.str "t0", .str "t4"])]) 30 2 =
      detect_abnormal_posting parse0
        (.dict [(.str "bot", .list [.str "t4", .str "t0"])]) 30 2 :=
  detect_abnormal_posting_perm_invariant parse0 30 2 [] [] (.str "bot")
    (List.Perm.swap (PyVal.str "t4") (PyVal.str "t0") [])

theorem lookupCount_bumpKey_same (tbl : List (String × ℕ)) (kk : String) :
    lookupCount (bumpKey tbl kk) kk = lookupCount tbl kk + 1 := by
  induction tbl with
  | nil => simp [bumpKey, lookupCount]
  | cons e rest ih =>
      obtain ⟨a, n⟩ := e
      by_cases ha : a = kk
      · subst ha
        simp [bumpKey, lookupCount]
      · simp [bumpKey, lookupCount, ha, ih]

theorem lookupCount_bumpKey_other (tbl : List (String × ℕ)) (kk kk2 : String)
    (h : kk2 ≠ kk) :
    lookupCount (bumpKey tbl kk) kk2 = lookupCount tbl kk2 := by
  induction tbl with
  | nil => simp [bumpKey, lookupCount, Ne.symm h]
  | cons e rest ih =>
      obtain ⟨a, n⟩ := e
      by_cases ha : a = kk
      · subst ha
        simp [bumpKey, lookupCount, Ne.symm h]
      · by_cases ha2 : a = kk2
        · subst ha2
          simp [bumpKey, lookupCount, ha]
        · simp [bumpKey, lookupCount, ha, ha2, ih]

theorem mem_fst_bumpKey (tbl : List (String × ℕ)) (kk x : String) :
    x ∈ (bumpKey tbl kk).map Prod.fst ↔ x ∈ tbl.map Prod.fst ∨ x = kk := by
  induction tbl with
  | nil => simp [bumpKey]
  | cons e rest ih =>
      obtain ⟨a, n⟩ := e
      by_cases ha : a = kk
      · subst ha
        simp [bumpKey]
        tauto
      · simp only [bumpKey, if_neg ha, List.map_cons, List.mem_cons, ih]
        tauto

theorem nodup_fst_bumpKey (tbl : List (String × ℕ)) (kk : String)
    (h : (tbl.map Prod.fst).Nodup) : ((bumpKey tbl kk).map Prod.fst).Nodup := by
  induction tbl with
  | nil => simp [bumpKey]
  | cons e rest ih =>
      obtain ⟨a, n⟩ := e
      simp only [List.map_cons, List.nodup_cons] at h
      by_cases ha : a = kk
      · subst ha
        simpa [bumpKey] using h
      · simp only [bumpKey, if_neg ha, List.map_cons, List.nodup_cons]
        refine ⟨?_, ih h.2⟩
        rw [mem_fst_bumpKey]
        rintro (hx | rfl)
        · exact h.1 hx
        · exact ha rfl

theorem entry_val_eq_lookupCount (tbl : List (String × ℕ)) (p : String × ℕ)
    (hnd : (tbl.map Prod.fst).Nodup) (hp : p ∈ tbl) :
    p.2 = lookupCount tbl p.1 := by
  induction tbl with
  | nil => cases hp
  | cons e rest ih =>
      obtain ⟨a, n⟩ := e
      simp only [List.map_cons, List.nodup_cons] at hnd
      rcases List.mem_cons.mp hp with rfl | hp
      · simp [lookupCount]
      · have hne : a ≠ p.1 := by
          intro hc
          exact hnd.1 (hc ▸ List.mem_map_of_mem Prod.fst hp)
        simp only [lookupCount, if_neg hne]
        exact ih hnd.2 hp

theorem lookupCount_foldl_bumpKey (keys : List String) (kk : String)
    (tbl : List (String × ℕ)) :
    lookupCount (keys.foldl bumpKey tbl) kk = lookupCount tbl kk + keys.count kk := by
  induction keys generalizing tbl with
  | nil => simp
  | cons kx rest ih =>
      simp only [List.foldl_cons, ih]
      have hc : (kx :: rest).count kk = rest.count kk + (if kx = kk then 1 else 0) := by
        simp [List.count_cons]
      by_cases hk : kx = kk
      · subst hk
        rw [hc, if_pos rfl, lookupCount_bumpKey_same]
        omega
      · rw [hc, if_neg hk, lookupCount_bumpKey_other tbl kx kk (fun hcc => hk hcc.symm)]
        omega

theorem mem_fst_foldl_bumpKey (keys : List String) (x : String)
    (tbl : List (String × ℕ)) :
    x ∈ (keys.foldl bumpKey tbl).map Prod.fst ↔
      x ∈ tbl.map Prod.fst ∨ x ∈ keys := by
  induction keys generalizing tbl with
  | nil => simp
  | cons kx rest ih =>
      simp only [List.foldl_cons, ih, mem_fst_bumpKey, List.mem_cons]
      tauto

theorem nodup_fst_foldl_bumpKey (keys : List String)
    (tbl : List (String × ℕ)) (h : (tbl.map Prod.fst).Nodup) :
    ((keys.foldl bumpKey tbl).map Prod.fst).Nodup := by
  induction keys generalizing tbl with
  | nil => simpa
  | cons kx rest ih =>
      simp only [List.foldl_cons]
      exact ih _ (nodup_fst_bumpKey tbl kx h)

theorem counts_foldl_eq (lower : String → String) (posts : List PyVal)
    (tbl : List (String × ℕ)) :
    posts.foldl
        (fun tbl2 p =>
          match p with
          | PyVal.str s => bumpKey tbl2 (normalizeKey lower s)
          | _ => tbl2) tbl =
      ((posts.filterMap PyVal.toStr).map (normalizeKey lower)).foldl bumpKey tbl := by
  induction posts generalizing tbl with
  | nil => simp
  | cons p rest ih =>
      cases p with
      | str s => simp [List.filterMap_cons, PyVal.toStr, ih]
      | int n => simp [List.filterMap_cons, PyVal.toStr, ih]
      | list ws => simp [List.filterMap_cons, PyVal.toStr, ih]
      | none => simp [List.filterMap_cons, PyVal.toStr, ih]

theorem detect_repeated_phrases_val_list (lower : String → String)
    (posts : List PyVal) (th : ℕ) :
    detect_repeated_phrases lower (.val (.list posts)) th =
      ((((posts.filterMap PyVal.toStr).map (normalizeKey lower)).foldl bumpKey []).filter
        (fun e => th < e.2)).map Prod.fst := by
  show ((posts.foldl
      (fun tbl p =>
        match p with
        | PyVal.str s => bumpKey tbl (normalizeKey lower s)
        | _ => tbl) []).filter (fun e => th < e.2)).map Prod.fst = _
  rw [counts_foldl_eq]

theorem mem_detect_repeated_phrases (lower : String → String)
    (posts : List PyVal) (th : ℕ) (kk : String) :
    kk ∈ detect_repeated_phrases lower (.val (.list posts)) th ↔
      th < countKey lower posts kk := by
  rw [detect_repeated_phrases_val_list]
  set keys := (posts.filterMap PyVal.toStr).map (normalizeKey lower) with hkeys
  have hnd := nodup_fst_foldl_bumpKey keys [] (by simp)
  have hlook : ∀ x, lookupCount (keys.foldl bumpKey []) x = keys.count x := by
    intro x
    rw [lookupCount_foldl_bumpKey]
    simp [lookupCount]
  have hck : countKey lower posts kk = keys.count kk := by
    rw [countKey, hkeys]
  constructor
  · intro hmem
    obtain ⟨e, he, rfl⟩ := List.mem_map.mp hmem
    obtain ⟨he2, hth⟩ := List.mem_filter.mp he
    rw [decide_eq_true_eq] at hth
    have hv := entry_val_eq_lookupCount _ e hnd he2
    rw [hv, hlook e.1] at hth
    rw [hck]
    exact hth
  · intro hth
    have hmemkeys : kk ∈ keys := by
      rw [hck] at hth
      exact List.count_pos_iff.mp (by omega)
    have hm2 : kk ∈ (keys.foldl bumpKey []).map Prod.fst := by
      rw [mem_fst_foldl_bumpKey]
      exact Or.inr hmemkeys
    obtain ⟨e, he, heq⟩ := List.mem_map.mp hm2
    refine List.mem_map.mpr ⟨e, List.mem_filter.mpr ⟨he, ?_⟩, heq⟩
    rw [decide_eq_true_eq]
    have hv := entry_val_eq_lookupCount _ e hnd he
    rw [hv, heq, hlook kk, ← hck]
    exact hth

/-- C2.  detect_repeated_phrases returns exactly the normalized keys whose
frequency over the string entries of the corpus is strictly greater than
repetition_threshold (so count = threshold is excluded and
count = threshold + 1 is included, and non-string entries count toward no
key); normalization identifies "Hello!!" and "hello" (Python's str.lower
maps "Hello!!" to "hello!!" and fixes "hello", recorded as hypotheses on
the lowercasing collaborator). -/
theorem detect_repeated_phrases_output_iff :
    (∀ (lower : String → String) (posts : List PyVal) (th : ℕ) (kk : String),
        kk ∈ detect_repeated_phrases lower (.val (.list posts)) th ↔
          th < countKey lower posts kk) ∧
      ∀ lower : String → String, lower "Hello!!" = "hello!!" →
        lower "hello" = "hello" →
          normalizeKey lower "Hello!!" = normalizeKey lower "hello" := by
  refine ⟨mem_detect_repeated_phrases, ?_⟩
  intro lower h1 h2
  unfold normalizeKey
  rw [h1, h2]
  decide

theorem detect_repeated_phrases_output_iff_witness :
    ("spam" ∈ detect_repeated_phrases lower0
        (.val (.list [.str "spam", .str "spam", .str "spam", .str "unique"])) 1 ↔
      1 < countKey lower0 [.str "spam", .str "spam", .str "spam", .str "unique"] "spam") ∧
      normalizeKey lower0 "Hello!!" = normalizeKey lower0 "hello" :=
  ⟨detect_repeated_phrases_output_iff.1 lower0
      [.str "spam", .str "spam", .str "spam", .str "unique"] 1 "spam",
    detect_repeated_phrases_output_iff.2 lower0 (by decide) (by decide)⟩

theorem stripChars_all_space (l : List Char) (h : ∀ c ∈ l, isPySpace c = true) :
    stripChars l = [] := by
  unfold stripChars
  rw [List.dropWhile_eq_nil_iff.mpr h]
  simp

theorem normalizeKey_eq_empty (lower : String → String) (s : String)
    (h : ∀ c ∈ (lower s).toList, keepChar c = false ∨ isPySpace c = true) :
    normalizeKey lower s = "" := by
  unfold normalizeKey
  have hall : ∀ c2 ∈ (lower s).toList.filter keepChar, isPySpace c2 = true := by
    intro c2 hc2
    obtain ⟨hmem, hkeep⟩ := List.mem_filter.mp hc2
    rcases h c2 hmem with hrem | hsp
    · rw [hrem] at hkeep
      simp at hkeep
    · exact hsp
  rw [stripChars_all_space _ hall]

/-- C10.  A post whose lowercased text consists only of characters removed
by the default cleaning rule and/or whitespace normalizes to the
empty-string key, and if the total count of the empty key is strictly
above the threshold then the empty string itself is in
detect_repeated_phrases's output. -/
theorem empty_key_counted_and_reported :
    (∀ (lower : String → String) (s : String),
        (∀ c ∈ (lower s).toList, keepChar c = false ∨ isPySpace c = true) →
          normalizeKey lower s = "") ∧
      ∀ (lower : String → String) (posts : List PyVal) (th : ℕ),
        th < countKey lower posts "" →
          "" ∈ detect_repeated_phrases lower (.val (.list posts)) th :=
  ⟨normalizeKey_eq_empty,
    fun lower posts th hth => (mem_detect_repeated_phrases lower posts th "").mpr hth⟩

theorem empty_key_counted_and_reported_witness :
    normalizeKey lower0 "!!!" = "" ∧
      "" ∈ detect_repeated_phrases lower0 (.val (.list [.str "!!!", .str "   "])) 1 :=
  ⟨empty_key_counted_and_reported.1 lower0 "!!!" (by decide),
    empty_key_counted_and_reported.2 lower0 [.str "!!!", .str "   "] 1 (by decide)⟩

theorem sentiment_foldl_eq (score : String → Option ℚ) (posts : List PyVal)
    (acc : List ℚ) :
    posts.foldl
        (fun acc2 p =>
          match p with
          | PyVal.str s =>
              match score s with
              | some x => acc2 ++ [x]
              | Option.none => acc2
          | _ => acc2) acc = acc ++ scoresOf score posts := by
  induction posts generalizing acc with
  | nil => simp [scoresOf]
  | cons p rest ih =>
      cases p with
      | str s =>
          cases hs : score s with
          | none =>
              simp only [List.foldl_cons, hs, ih, scoresOf, List.filterMap_cons,
                PyVal.toStr]
          | some x =>
              simp only [List.foldl_cons, hs, ih, scoresOf, List.filterMap_cons,
                PyVal.toStr, List.append_assoc, List.singleton_append]
      | int n => simp [scoresOf, List.filterMap_cons, PyVal.toStr, ih]
      | list ws => simp [scoresOf, List.filterMap_cons, PyVal.toStr, ih]
      | none => simp [scoresOf, List.filterMap_cons, PyVal.toStr, ih]

theorem sentiment_analysis_val_list (score : String → Option ℚ)
    (posts : List PyVal) :
    sentiment_analysis score (.val (.list posts)) =
      if posts.isEmpty then 0
      else if (scoresOf score posts).isEmpty then 0
      else listMean (scoresOf score posts) := by
  show (if posts.isEmpty then (0 : ℚ)
      else if (posts.foldl
          (fun acc p =>
            match p with
            | PyVal.str s =>
                match score s with
                | some x => acc ++ [x]
                | Option.none => acc
            | _ => acc) []).isEmpty then 0
      else listMean (posts.foldl
          (fun acc p =>
            match p with
            | PyVal.str s =>
                match score s with
                | some x => acc ++ [x]
                | Option.none => acc
            | _ => acc) [])) = _
  rw [sentiment_foldl_eq score posts []]
  simp

/-- C4.  sentiment_analysis returns the arithmetic mean of the polarity
scores of the successfully scored string posts, and 0 when the corpus is
empty or no entry yields a valid score. -/
theorem sentiment_analysis_mean_or_zero (score : String → Option ℚ)
    (posts : List PyVal) :
    sentiment_analysis score (.val (.list posts)) =
      if scoresOf score posts = [] then 0
      else listMean (scoresOf score posts) := by
  rw [sentiment_analysis_val_list]
  by_cases hp : posts = []
  · subst hp
    rfl
  · have hp2 : posts.isEmpty = false := List.isEmpty_eq_false.mpr hp
    rw [hp2]
    by_cases hs : scoresOf score posts = []
    · rw [if_pos hs]
      simp [hs]
    · have hs2 : (scoresOf score posts).isEmpty = false := List.isEmpty_eq_false.mpr hs
      rw [hs2, if_neg hs]
      simp

theorem mem_entryEdges (e : PyKey × PyVal) (a b : String) :
    (a, b) ∈ entryEdges e ↔
      ∃ fl, e.1 = PyKey.str a ∧ e.2 = PyVal.list fl ∧ PyVal.str b ∈ fl := by
  obtain ⟨kk, v⟩ := e
  cases v with
  | list fl =>
      cases kk with
      | str a2 =>
          simp only [entryEdges, List.mem_filterMap]
          constructor
          · rintro ⟨x, hx, hfx⟩
            cases x with
            | str b2 =>
                simp only [Option.some.injEq, Prod.mk.injEq] at hfx
                obtain ⟨rfl, rfl⟩ := hfx
                exact ⟨fl, rfl, rfl, hx⟩
            | int n => simp at hfx
            | list ws => simp at hfx
            | none => simp at hfx
          · rintro ⟨fl2, h1, h2, hb⟩
            obtain rfl : a2 = a := by
              injection h1
            obtain rfl : fl = fl2 := by
              injection h2
            exact ⟨PyVal.str b, hb, rfl⟩
      | int n =>
          simp only [entryEdges]
          constructor
          · intro h
            simp at h
          · rintro ⟨fl2, h1, h2, hb⟩
            cases h1
  | str s =>
      simp only [entryEdges]
      constructor
      · intro h
        simp at h
      · rintro ⟨fl2, h1, h2, hb⟩
        cases h2
  | int n =>
      simp only [entryEdges]
      constructor
      · intro h
        simp at h
      · rintro ⟨fl2, h1, h2, hb⟩
        cases h2
  | none =>
      simp only [entryEdges]
      constructor
      · intro h
        simp at h
      · rintro ⟨fl2, h1, h2, hb⟩
        cases h2

theorem mem_foldl_append_edges (entries : List (PyKey × PyVal))
    (init : List (String × String)) (p : String × String) :
    p ∈ entries.foldl (fun es e => es ++ entryEdges e) init ↔
      p ∈ init ∨ ∃ e ∈ entries, p ∈ entryEdges e := by
  induction entries generalizing init with
  | nil => simp
  | cons e rest ih =>
      simp only [List.foldl_cons, ih, List.mem_append, List.mem_cons]
      constructor
      · rintro ((hp | hp) | ⟨e2, he2, hp⟩)
        · exact Or.inl hp
        · exact Or.inr ⟨e, Or.inl rfl, hp⟩
        · exact Or.inr ⟨e2, Or.inr he2, hp⟩
      · rintro (hp | ⟨e2, rfl | he2, hp⟩)
        · exact Or.inl (Or.inl hp)
        · exact Or.inl (Or.inr hp)
        · exact Or.inr ⟨e2, he2, hp⟩

theorem mem_buildEdges (entries : List (PyKey × PyVal)) (a b : String) :
    (a, b) ∈ buildEdges entries ↔ validPair entries a b := by
  rw [buildEdges, mem_foldl_append_edges]
  simp only [List.not_mem_nil, false_or]
  constructor
  · rintro ⟨e, he, hp⟩
    obtain ⟨fl, h1, h2, hb⟩ := (mem_entryEdges e a b).mp hp
    obtain ⟨kk, v⟩ := e
    simp only at h1 h2
    subst h1
    subst h2
    exact ⟨fl, he, hb⟩
  · rintro ⟨fl, he, hb⟩
    exact ⟨(PyKey.str a, PyVal.list fl), he,
      (mem_entryEdges _ a b).mpr ⟨fl, rfl, rfl, hb⟩⟩

theorem edgeAdj_symm (es : List (String × String)) :
    Symmetric (edgeAdj es) := by
  intro x y h
  rcases h with h | h
  · exact Or.inr h
  · exact Or.inl h

theorem reach_isNode (es : List (String × String)) (a y : String)
    (ha : isNode es a) (h : Relation.ReflTransGen (edgeAdj es) a y) :
    isNode es y := by
  induction h with
  | refl => exact ha
  | tail hrt hstep ih =>
      rcases hstep with h1 | h1
      · exact ⟨_, Or.inr h1⟩
      · exact ⟨_, Or.inl h1⟩

theorem connectedComponents_iff_maximal (es : List (String × String))
    (S : Set String) :
    S ∈ connectedComponents es ↔
      S.Nonempty ∧ (∀ x ∈ S, isNode es x) ∧ mutualReach (edgeAdj es) S ∧
        ∀ T, S ⊆ T → (∀ x ∈ T, isNode es x) → mutualReach (edgeAdj es) T →
          T = S := by
  have hsym := Relation.ReflTransGen.symmetric (edgeAdj_symm es)
  constructor
  · rintro ⟨a, ha, rfl⟩
    have hmemself : a ∈ componentOf es a := Relation.ReflTransGen.refl
    refine ⟨⟨a, hmemself⟩, ?_, ?_, ?_⟩
    · intro x hx
      exact reach_isNode es a x ha hx
    · intro x hx y hy
      exact (hsym hx).trans hy
    · intro T hST hTnode hTreach
      apply Set.Subset.antisymm
      · intro t ht
        exact hTreach a (hST hmemself) t ht
      · exact hST
  · rintro ⟨⟨a, haS⟩, hnodes, hreach, hmax⟩
    refine ⟨a, hnodes a haS, ?_⟩
    refine (hmax (componentOf es a) ?_ ?_ ?_).symm
    · intro x hx
      exact hreach a haS x hx
    · intro y hy
      exact reach_isNode es a y (hnodes a haS) hy
    · intro x hx y hy
      exact (hsym hx).trans hy

/-- C3.  analyze_network returns exactly the node-sets of the maximal
connected components of the undirected graph built from the valid
(string key, list value, string friend) pairs, keeping only components of
size strictly greater than cluster_threshold. -/
theorem analyze_network_components_iff (entries : List (PyKey × PyVal))
    (ct : ℕ) (S : Set String) :
    S ∈ analyze_network (.dict entries) ct ↔
      specIsComponent entries S ∧ ct < S.ncard := by
  have hadj : edgeAdj (buildEdges entries) = specAdj entries := by
    funext x y
    apply propext
    unfold edgeAdj specAdj
    rw [mem_buildEdges, mem_buildEdges]
  have hnode : isNode (buildEdges entries) = specNode entries := by
    funext x
    apply propext
    unfold isNode specNode
    constructor
    · rintro ⟨y, h | h⟩
      · exact ⟨y, Or.inl ((mem_buildEdges entries x y).mp h)⟩
      · exact ⟨y, Or.inr ((mem_buildEdges entries y x).mp h)⟩
    · rintro ⟨y, h | h⟩
      · exact ⟨y, Or.inl ((mem_buildEdges entries x y).mpr h)⟩
      · exact ⟨y, Or.inr ((mem_buildEdges entries y x).mpr h)⟩
  have hmem : S ∈ analyze_network (.dict entries) ct ↔
      S ∈ connectedComponents (buildEdges entries) ∧ ct < S.ncard := Iff.rfl
  rw [hmem, connectedComponents_iff_maximal, hadj, hnode]
  exact Iff.rfl

/-- C8.  Cluster detection is symmetric: whether a lists b as a friend or
b lists a, the same undirected edge is induced, a and b are joined by a
path, and their components coincide. -/
theorem analyze_network_edge_symmetric (entries : List (PyKey × PyVal))
    (a b : String) (h : validPair entries a b ∨ validPair entries b a) :
    edgeAdj (buildEdges entries) a b ∧
      Relation.ReflTransGen (edgeAdj (buildEdges entries)) a b ∧
      componentOf (buildEdges entries) a = componentOf (buildEdges entries) b := by
  have hadj : edgeAdj (buildEdges entries) a b := by
    rcases h with h | h
    · exact Or.inl ((mem_buildEdges entries a b).mpr h)
    · exact Or.inr ((mem_buildEdges entries b a).mpr h)
  have hreach : Relation.ReflTransGen (edgeAdj (buildEdges entries)) a b :=
    Relation.ReflTransGen.single hadj
  refine ⟨hadj, hreach, ?_⟩
  ext y
  constructor
  · intro hy
    exact ((Relation.ReflTransGen.symmetric
      (edgeAdj_symm (buildEdges entries))) hreach).trans hy
  · intro hy
    exact hreach.trans hy

theorem analyze_network_edge_symmetric_witness :
    edgeAdj (buildEdges [(PyKey.str "a", PyVal.list [PyVal.str "b"])]) "a" "b" ∧
      Relation.ReflTransGen
        (edgeAdj (buildEdges [(PyKey.str "a", PyVal.list [PyVal.str "b"])])) "a" "b" ∧
      componentOf (buildEdges [(PyKey.str "a", PyVal.list [PyVal.str "b"])]) "a" =
        componentOf (buildEdges [(PyKey.str "a", PyVal.list [PyVal.str "b"])]) "b" :=
  analyze_network_edge_symmetric [(PyKey.str "a", PyVal.list [PyVal.str "b"])] "a" "b"
    (Or.inl ⟨[PyVal.str "b"], List.mem_singleton.mpr rfl, List.mem_singleton.mpr rfl⟩)

/-- C5.  A wrong-typed top-level container makes each analyzer return its
zero-value result: [] for detect_abnormal_posting and (no clusters) for
analyze_network on a non-dict, [] for detect_repeated_phrases and 0 for
sentiment_analysis on a non-list; no exception propagates (the embedding
is total). -/
theorem analyzers_zero_on_wrong_top_level (parse score : String → Option ℚ)
    (lower : String → String) (it k : ℚ) (th ct : ℕ) (o : PyObj) :
    (o.isDict = false →
      detect_abnormal_posting parse o it k = [] ∧ analyze_network o ct = ∅) ∧
    (o.isList = false →
      detect_repeated_phrases lower o th = [] ∧ sentiment_analysis score o = 0) := by
  constructor
  · intro h
    match o with
    | .val v => exact ⟨rfl, rfl⟩
    | .dict entries => simp [PyObj.isDict] at h
  · intro h
    match o with
    | .dict entries => exact ⟨rfl, rfl⟩
    | .val (.str s) => exact ⟨rfl, rfl⟩
    | .val (.int n) => exact ⟨rfl, rfl⟩
    | .val (.list l) => simp [PyObj.isList] at h
    | .val .none => exact ⟨rfl, rfl⟩

theorem analyzers_zero_on_wrong_top_level_witness :
    detect_abnormal_posting parse0 (.val (.int 7)) 30 2 = [] ∧
      analyze_network (.val (.int 7)) 20 = ∅ ∧
      detect_repeated_phrases lower0 (.val (.int 7)) 5 = [] ∧
      sentiment_analysis parse0 (.val (.int 7)) = 0 :=
  ⟨((analyzers_zero_on_wrong_top_level parse0 parse0 lower0 30 2 5 20 (.val (.int 7))).1 rfl).1,
    ((analyzers_zero_on_wrong_top_level parse0 parse0 lower0 30 2 5 20 (.val (.int 7))).1 rfl).2,
    ((analyzers_zero_on_wrong_top_level parse0 parse0 lower0 30 2 5 20 (.val (.int 7))).2 rfl).1,
    ((analyzers_zero_on_wrong_top_level parse0 parse0 lower0 30 2 5 20 (.val (.int 7))).2 rfl).2⟩
